import Mathlib

/-!
Shallow embedding of the pool-boy scanner bot (`src/bot.py`).

Addresses are strings; block heights are integers (Python `int`).  The
Python `dict[str, int]` `seen_borrow_block` is modelled as an association
list with unique keys preserved by the update operation, and the Python
`set[str]` `backlog` as a `Finset String`.  The threading lock is modelled
by a boolean parameter `got` saying whether the acquisition succeeded, and
the external log provider by an explicit function argument returning
`Except` per sub-range.
-/

/-- A decoded Borrow log record: `reserve` and `block_number` are accessed
via `getattr` with defaults in the source, hence `Option`; `onBehalfOf` is
accessed directly. -/
structure LogRec where
  reserve : Option String
  onBehalfOf : String
  block_number : Option Int
deriving DecidableEq, Repr

/-- The mutable scanner state (`BotState` in `src/bot.py`), minus the lock
and the unused `backfill_busy` flag.  Default values are those of the
dataclass with the tuning environment variables unset. -/
structure BotState where
  allowed_reserves : Finset String := ∅
  chunk_blocks : Int := 100
  scan_interval_blocks : Int := 5
  rpc_max_log_range : Int := 10
  last_scan_block : Int := 0
  next_end : Option Int := none
  seen_borrow_block : List (String × Int) := []
  backlog : Finset String := ∅
  last_backfill_head : Int := 0
deriving DecidableEq

/-- `d.get(a)` on the seen-height dict. -/
def lookupSeen : List (String × Int) → String → Option Int
  | [], _ => none
  | (k, v) :: t, a => if k = a then some v else lookupSeen t a

/-- `d[a] = h` on the seen-height dict: update in place if present,
append otherwise. -/
def setKey : List (String × Int) → String → Int → List (String × Int)
  | [], a, h => [(a, h)]
  | (k, v) :: t, a, h => if k = a then (k, h) :: t else (k, v) :: setKey t a h

/-- One iteration of the loop body of `_enqueue_many_newer` for a single
address `a` at observation height `height`; returns the increment to
`added` and the updated state. -/
def enqueueOne (a : String) (height : Int) (s : BotState) : Int × BotState :=
  let prev := (lookupSeen s.seen_borrow_block a).getD (-1)
  if prev < height then
    let s1 := { s with seen_borrow_block := setKey s.seen_borrow_block a height }
    if a ∈ s1.backlog then (0, s1)
    else (1, { s1 with backlog := insert a s1.backlog })
  else (0, s)

/-- `_enqueue_many_newer(addrs, height, s)`: iterate `enqueueOne` over the
addresses, accumulating the `added` counter. -/
def enqueueManyNewer : List String → Int → BotState → Int × BotState
  | [], _, s => (0, s)
  | a :: rest, height, s =>
    let r := enqueueOne a height s
    let r2 := enqueueManyNewer rest height r.2
    (r.1 + r2.1, r2.2)

/-- `_cap_to_head(s, head)`. -/
def capToHead (s : BotState) (head : Int) : BotState :=
  { s with
    next_end := s.next_end.map (fun v => min v head)
    last_scan_block := min s.last_scan_block head }

/-- `_maybe_debtor(log, allowed)`: the borrower iff the record's reserve is
one of the allowed instruments. -/
def maybeDebtor (log : LogRec) (allowed : Finset String) : Option String :=
  match log.reserve with
  | some r => if r ∈ allowed then some log.onBehalfOf else none
  | none => none

/-- Fuel-indexed version of the loop inside `_iter_block_ranges`: from
`cur`, emit `(cur, min (cur + step - 1) stop)` windows while `cur ≤ stop`.
The fuel only bounds the iteration count; `iterBlockRanges` supplies
enough fuel for any `step ≥ 1` (each iteration advances `cur` by at least
one). -/
def iterBlockRangesGo (step stopBlock : Int) : Nat → Int → List (Int × Int)
  | 0, _ => []
  | fuel + 1, cur =>
    if cur ≤ stopBlock then
      (cur, min (cur + step - 1) stopBlock) ::
        iterBlockRangesGo step stopBlock fuel (min (cur + step - 1) stopBlock + 1)
    else []

/-- `_iter_block_ranges(start_block, stop_block, step)` as a list of
`(start, end)` sub-ranges. -/
def iterBlockRanges (startBlock stopBlock step : Int) : List (Int × Int) :=
  iterBlockRangesGo step stopBlock (stopBlock + 1 - startBlock).toNat startBlock

/-- `_iter_logs_range(addresses, events, start, stop, step)`, with the
provider call abstracted as `getLogs : sub-range → Except`:  a failing
sub-range is logged and skipped (yields no records), the rest of the
window is still fetched. -/
def iterLogsRange (getLogs : Int → Int → Except Unit (List LogRec))
    (startBlock stopBlock step : Int) : List LogRec :=
  if stopBlock < startBlock then []
  else
    (iterBlockRanges startBlock stopBlock step).flatMap fun w =>
      match getLogs w.1 w.2 with
      | .ok logs => logs
      | .error _ => []

/-- `_iter_borrowers_range(start, stop, step, allowed)`: extract debtors
from the fetched logs, dropping non-matches and falsy (empty) addresses. -/
def iterBorrowersRange (getLogs : Int → Int → Except Unit (List LogRec))
    (startBlock stopBlock step : Int) (allowed : Finset String) : List String :=
  (iterLogsRange getLogs startBlock stopBlock step).filterMap fun log =>
    match maybeDebtor log allowed with
    | some d => if d = "" then none else some d
    | none => none

/-- The two scan directions (`FORWARD` / `BACKFILL` mode strings). -/
inductive Mode
  | forward
  | backfill
deriving DecidableEq, Repr

/-- `_plan_window(s, head, mode)`.  In backfill mode the function mutates
`s.next_end` (re-anchoring to `head`), so it returns the updated state
along with the optional window. -/
def planWindow (s : BotState) (head : Int) (mode : Mode) :
    BotState × Option (Int × Int) :=
  match mode with
  | .forward =>
    let start := s.last_scan_block + 1
    if start > head then (s, none)
    else (s, some (start, min (start + s.chunk_blocks - 1) head))
  | .backfill =>
    let ne :=
      match s.next_end with
      | none => head
      | some v => if v > head then head else v
    let s1 := { s with next_end := some ne }
    if ne < 1 then (s1, none)
    else
      let start := max 1 (ne - s1.chunk_blocks + 1)
      if ne < start then (s1, none) else (s1, some (start, ne))

/-- `_commit_window(s, head, mode, start, stop)`. -/
def commitWindow (s : BotState) (head : Int) (mode : Mode)
    (start stop : Int) : BotState :=
  match mode with
  | .forward => { s with last_scan_block := stop }
  | .backfill => { s with next_end := some (start - 1), last_backfill_head := head }

/-- `_scan_window(s, start, stop)`: collect the set of discovered debtors
(modelled as a deduplicated list) and enqueue them all at height `stop`;
returns `((unique count, newly added count), state)`. -/
def scanWindow (getLogs : Int → Int → Except Unit (List LogRec))
    (s : BotState) (start stop : Int) : (Int × Int) × BotState :=
  let addrs := (iterBorrowersRange getLogs start stop s.rpc_max_log_range
    s.allowed_reserves).dedup
  let r := enqueueManyNewer addrs stop s
  ((addrs.length, r.1), r.2)

/-- Accumulators of the window loop in `_sync_once`. -/
structure LoopAcc where
  windows : Nat
  uniqTotal : Int
  addedTotal : Int
  firstStart : Option Int
  lastStop : Option Int
deriving DecidableEq, Repr

/-- The `while windows < max_windows` loop of `_sync_once`: plan a window,
scan it, commit it, update the counters; stop when the planner returns no
window or the window budget is exhausted. -/
def syncLoop (getLogs : Int → Int → Except Unit (List LogRec)) (head : Int)
    (mode : Mode) : Nat → LoopAcc → BotState → LoopAcc × BotState
  | 0, acc, s => (acc, s)
  | fuel + 1, acc, s =>
    match planWindow s head mode with
    | (s1, none) => (acc, s1)
    | (s1, some (start, stop)) =>
      let r := scanWindow getLogs s1 start stop
      let s2 := commitWindow r.2 head mode start stop
      syncLoop getLogs head mode fuel
        { windows := acc.windows + 1
          uniqTotal := acc.uniqTotal + r.1.1
          addedTotal := acc.addedTotal + r.1.2
          firstStart := some (acc.firstStart.getD start)
          lastStop := some stop } s2

/-- The statistics dictionary `_sync_once` returns on a successful run. -/
structure SyncStats where
  windows : Nat
  first : Int
  last : Int
  span : Int
  uniq : Int
  added : Int
  backlog_size : Nat
  seen_debtors_total : Nat
  last_scan_block : Int
  next_end : Option Int
deriving DecidableEq, Repr

/-- Outcome of `_sync_once`: either the lock was contended and the call
was skipped, or the run's statistics. -/
inductive SyncResult
  | skippedLocked
  | stats (st : SyncStats)
deriving DecidableEq, Repr

/-- `_sync_once(s, head, mode, max_windows)`, with the lock acquisition
outcome passed in as `got`. -/
def syncOnce (getLogs : Int → Int → Except Unit (List LogRec)) (got : Bool)
    (s : BotState) (head : Int) (mode : Mode) (maxWindows : Nat) :
    SyncResult × BotState :=
  if !got then (.skippedLocked, s)
  else
    let r := syncLoop getLogs head mode maxWindows
      ⟨0, 0, 0, none, none⟩ s
    let acc := r.1
    let s1 := r.2
    let span :=
      match acc.firstStart with
      | some f => acc.lastStop.getD 0 - f + 1
      | none => 0
    (.stats
      { windows := acc.windows
        first := acc.firstStart.getD 0
        last := acc.lastStop.getD 0
        span := span
        uniq := acc.uniqTotal
        added := acc.addedTotal
        backlog_size := s1.backlog.card
        seen_debtors_total := s1.seen_borrow_block.length
        last_scan_block := s1.last_scan_block
        next_end := s1.next_end }, s1)

/-- Outcome of `_process_live_borrow`. -/
inductive LiveResult
  | ignored
  | skippedLocked
  | event (added : Int) (backlogSize : Nat) (seenTotal : Nat)
deriving DecidableEq, Repr

/-- `_process_live_borrow(s, log)`, with the lock acquisition outcome
passed in as `got`. -/
def processLiveBorrow (got : Bool) (s : BotState) (log : LogRec) :
    LiveResult × BotState :=
  match maybeDebtor log s.allowed_reserves with
  | none => (.ignored, s)
  | some d =>
    if d = "" then (.ignored, s)
    else
      let height := log.block_number.getD s.last_scan_block
      if got then
        let r := enqueueManyNewer [d] height s
        (.event r.1 r.2.backlog.card r.2.seen_borrow_block.length, r.2)
      else (.skippedLocked, s)

/-- Outcome of `handle_blocks`. -/
inductive TickResult
  | noop
  | catchup (st : SyncResult)
  | result (st : SyncResult)
deriving DecidableEq, Repr

/-- `handle_blocks(b)`: a forward catch-up pass of up to four windows,
then (when caught up and the backfill cadence allows) one backfill
window.  `gotF`/`gotB` are the lock outcomes of the two `_sync_once`
calls. -/
def handleBlocks (getLogs : Int → Int → Except Unit (List LogRec))
    (gotF gotB : Bool) (s : BotState) (head : Int) : TickResult × BotState :=
  if head > s.last_scan_block then
    let r := syncOnce getLogs gotF s head .forward 4
    if r.2.last_scan_block < head then (.catchup r.1, r.2)
    else if head - r.2.last_backfill_head < r.2.scan_interval_blocks then (.noop, r.2)
    else
      let r2 := syncOnce getLogs gotB r.2 head .backfill 1
      (.result r2.1, r2.2)
  else if head - s.last_backfill_head < s.scan_interval_blocks then (.noop, s)
  else
    let r2 := syncOnce getLogs gotB s head .backfill 1
    (.result r2.1, r2.2)

/-- The JSON-able checkpoint payload produced by `_state_to_jsonable`. -/
structure Jsonable where
  next_end : Option Int
  last_scan_block : Int
  seen_borrow_block : List (String × Int)
  backlog : List String
deriving DecidableEq, Repr

/-- `_state_to_jsonable(s)`: the backlog set is serialized sorted. -/
def stateToJsonable (s : BotState) : Jsonable :=
  { next_end := s.next_end
    last_scan_block := s.last_scan_block
    seen_borrow_block := s.seen_borrow_block
    backlog := s.backlog.sort (· ≤ ·) }

/-- `_state_from_jsonable(d)`: start from a fresh `BotState()` and restore
the four persisted fields (the `next_end` key is always present in a
payload written by `stateToJsonable`). -/
def stateFromJsonable (d : Jsonable) : BotState :=
  { (({} : BotState)) with
    next_end := d.next_end
    last_scan_block := d.last_scan_block
    seen_borrow_block := d.seen_borrow_block
    backlog := d.backlog.toFinset }

/-- `init_state(startup_state)`: restore a checkpoint if present (the
`restored` argument is the result of `_restore_state`), install the
configured reserves, seed `next_end` from the startup state or the
current head when unset, seed `last_scan_block` from the head on a fresh
start, and cap both frontiers to the head.  `startupLast` models
`startup_state.last_block_processed` (`last or head` treats `0` as
absent, matching Python truthiness). -/
def initState (restored : Option BotState) (startupLast : Option Int)
    (head : Int) (allowed : Finset String) : BotState :=
  let s := restored.getD {}
  let s := { s with allowed_reserves := allowed }
  let seed :=
    match startupLast with
    | some l => if l = 0 then head else l
    | none => head
  let s :=
    match s.next_end with
    | none => { s with next_end := some seed }
    | some _ => s
  let s := if restored.isNone then { s with last_scan_block := head } else s
  capToHead s head

/-- One backfill plan/commit cycle: plan a backfill window at `head`; if
one is available, commit it (the scan step between plan and commit does
not touch the frontiers). -/
def backfillStep (head : Int) (s : BotState) : BotState :=
  match planWindow s head .backfill with
  | (s1, none) => s1
  | (s1, some (start, stop)) => commitWindow s1 head .backfill start stop

/-- The ascending list of integers of the closed interval `[a, b]`
(empty when `b < a`); used to state exact coverage of block ranges. -/
def intList (a b : Int) : List Int :=
  (List.range (b + 1 - a).toNat).map (fun i => a + Int.ofNat i)

/-- Inputs of one `handle_blocks` invocation: the delivered head, the two
lock-acquisition outcomes and the provider behaviour during that tick. -/
structure TickInput where
  head : Int
  gotF : Bool
  gotB : Bool
  logs : Int → Int → Except Unit (List LogRec)

/-- Fold a sequence of tick invocations over the state. -/
def runTicks (s : BotState) (ticks : List TickInput) : BotState :=
  ticks.foldl (fun s t => (handleBlocks t.logs t.gotF t.gotB s t.head).2) s

/-- The backlog/seen invariant, with a ghost map `g` recording for each
address the height at which it was (last) enqueued: every backlog member
has a recorded seen height at least its enqueue height. -/
def SeenGE (s : BotState) (g : String → Int) : Prop :=
  ∀ a ∈ s.backlog, ∃ h, lookupSeen s.seen_borrow_block a = some h ∧ g a ≤ h

/-! ### Lemmas about the seen-height dict -/

theorem lookupSeen_setKey (m : List (String × Int)) (a : String) (h : Int)
    (b : String) :
    lookupSeen (setKey m a h) b = if a = b then some h else lookupSeen m b := by
  induction m with
  | nil => by_cases hab : a = b <;> simp [setKey, lookupSeen, hab]
  | cons kv t ih =>
    obtain ⟨k, v⟩ := kv
    by_cases hka : k = a
    · subst hka
      by_cases hkb : k = b <;> simp [setKey, lookupSeen, hkb]
    · by_cases hkb : k = b
      · subst hkb
        have hab : a ≠ k := fun hh => hka hh.symm
        simp [setKey, lookupSeen, hka, hab]
      · simp [setKey, lookupSeen, hka, hkb, ih]

/-! ### Lemmas about `enqueueOne` / `enqueueManyNewer` -/

theorem enqueueOne_seen (a : String) (ht : Int) (s : BotState) (b : String) :
    lookupSeen (enqueueOne a ht s).2.seen_borrow_block b =
      if a = b ∧ (lookupSeen s.seen_borrow_block a).getD (-1) < ht then some ht
      else lookupSeen s.seen_borrow_block b := by
  unfold enqueueOne
  by_cases hlt : (lookupSeen s.seen_borrow_block a).getD (-1) < ht
  · by_cases hmem : a ∈ s.backlog <;> simp [hlt, hmem, lookupSeen_setKey]
  · simp [hlt]

theorem enqueueOne_backlog (a : String) (ht : Int) (s : BotState) :
    (enqueueOne a ht s).2.backlog =
      if (lookupSeen s.seen_borrow_block a).getD (-1) < ht then insert a s.backlog
      else s.backlog := by
  unfold enqueueOne
  by_cases hlt : (lookupSeen s.seen_borrow_block a).getD (-1) < ht
  · by_cases hmem : a ∈ s.backlog <;> simp [hlt, hmem, Finset.insert_eq_self]
  · simp [hlt]

theorem enqueueOne_frame (a : String) (ht : Int) (s : BotState) :
    (enqueueOne a ht s).2.last_scan_block = s.last_scan_block ∧
    (enqueueOne a ht s).2.next_end = s.next_end ∧
    (enqueueOne a ht s).2.chunk_blocks = s.chunk_blocks ∧
    (enqueueOne a ht s).2.scan_interval_blocks = s.scan_interval_blocks ∧
    (enqueueOne a ht s).2.rpc_max_log_range = s.rpc_max_log_range ∧
    (enqueueOne a ht s).2.allowed_reserves = s.allowed_reserves ∧
    (enqueueOne a ht s).2.last_backfill_head = s.last_backfill_head := by
  unfold enqueueOne
  by_cases hlt : (lookupSeen s.seen_borrow_block a).getD (-1) < ht
  · by_cases hmem : a ∈ s.backlog <;> simp [hlt, hmem]
  · simp [hlt]

theorem enqueueMany_frame (l : List String) (ht : Int) (s : BotState) :
    (enqueueManyNewer l ht s).2.last_scan_block = s.last_scan_block ∧
    (enqueueManyNewer l ht s).2.next_end = s.next_end ∧
    (enqueueManyNewer l ht s).2.chunk_blocks = s.chunk_blocks ∧
    (enqueueManyNewer l ht s).2.scan_interval_blocks = s.scan_interval_blocks ∧
    (enqueueManyNewer l ht s).2.rpc_max_log_range = s.rpc_max_log_range ∧
    (enqueueManyNewer l ht s).2.allowed_reserves = s.allowed_reserves ∧
    (enqueueManyNewer l ht s).2.last_backfill_head = s.last_backfill_head := by
  induction l generalizing s with
  | nil => simp [enqueueManyNewer]
  | cons a rest ih =>
    have h1 := enqueueOne_frame a ht s
    have h2 := ih (enqueueOne a ht s).2
    simp only [enqueueManyNewer]
    exact ⟨h2.1.trans h1.1, h2.2.1.trans h1.2.1, h2.2.2.1.trans h1.2.2.1,
      h2.2.2.2.1.trans h1.2.2.2.1, h2.2.2.2.2.1.trans h1.2.2.2.2.1,
      h2.2.2.2.2.2.1.trans h1.2.2.2.2.2.1, h2.2.2.2.2.2.2.trans h1.2.2.2.2.2.2⟩

/-- An address whose recorded height is already `≥ ht` is untouched by a
whole `enqueueManyNewer` pass at height `ht`. -/
theorem enqueueMany_seen_stable (l : List String) (ht : Int) (s : BotState)
    (b : String) (h : Int) (hb : lookupSeen s.seen_borrow_block b = some h)
    (hge : ht ≤ h) :
    lookupSeen (enqueueManyNewer l ht s).2.seen_borrow_block b = some h := by
  induction l generalizing s with
  | nil => simpa [enqueueManyNewer]
  | cons a rest ih =>
    simp only [enqueueManyNewer]
    apply ih
    rw [enqueueOne_seen]
    by_cases hab : a = b
    · subst hab
      simp [hb, not_lt.mpr hge]
    · simp [hab, hb]

/-- Recorded seen heights never decrease across `enqueueManyNewer`. -/
theorem enqueueMany_seen_mono (l : List String) (ht : Int) (s : BotState)
    (b : String) (h : Int) (hb : lookupSeen s.seen_borrow_block b = some h) :
    ∃ h2, lookupSeen (enqueueManyNewer l ht s).2.seen_borrow_block b = some h2 ∧
      h ≤ h2 := by
  induction l generalizing s h with
  | nil => exact ⟨h, by simpa [enqueueManyNewer], le_refl h⟩
  | cons a rest ih =>
    simp only [enqueueManyNewer]
    have hcase := enqueueOne_seen a ht s b
    by_cases hc : a = b ∧ (lookupSeen s.seen_borrow_block a).getD (-1) < ht
    · rw [if_pos hc] at hcase
      obtain ⟨h2, hh2, hle⟩ := ih (enqueueOne a ht s).2 ht hcase
      refine ⟨h2, hh2, le_trans ?_ hle⟩
      obtain ⟨hab, hlt⟩ := hc
      subst hab
      rw [hb] at hlt
      exact le_of_lt hlt
    · rw [if_neg hc] at hcase
      exact ih (enqueueOne a ht s).2 h (hcase.trans hb)

/-- The backlog only grows under `enqueueManyNewer`. -/
theorem enqueueMany_backlog_mono (l : List String) (ht : Int) (s : BotState) :
    s.backlog ⊆ (enqueueManyNewer l ht s).2.backlog := by
  induction l generalizing s with
  | nil => simp [enqueueManyNewer]
  | cons a rest ih =>
    simp only [enqueueManyNewer]
    refine Finset.Subset.trans ?_ (ih (enqueueOne a ht s).2)
    rw [enqueueOne_backlog]
    split
    · exact Finset.subset_insert a s.backlog
    · exact Finset.Subset.refl _

/-- An address that enters the backlog during an `enqueueManyNewer` pass at
height `ht` ends the pass with recorded seen height exactly `ht`. -/
theorem enqueueMany_new_seen (l : List String) (ht : Int) (s : BotState)
    (b : String) (hnew : b ∈ (enqueueManyNewer l ht s).2.backlog)
    (hold : b ∉ s.backlog) :
    lookupSeen (enqueueManyNewer l ht s).2.seen_borrow_block b = some ht := by
  induction l generalizing s with
  | nil => simp only [enqueueManyNewer] at hnew; exact absurd hnew hold
  | cons a rest ih =>
    simp only [enqueueManyNewer] at hnew ⊢
    by_cases hmem : b ∈ (enqueueOne a ht s).2.backlog
    · have hbacklog := enqueueOne_backlog a ht s
      have hseen := enqueueOne_seen a ht s b
      by_cases hlt : (lookupSeen s.seen_borrow_block a).getD (-1) < ht
      · rw [hbacklog, if_pos hlt, Finset.mem_insert] at hmem
        rcases hmem with hab | hbs
        · subst hab
          rw [if_pos ⟨rfl, hlt⟩] at hseen
          exact enqueueMany_seen_stable rest ht _ b ht hseen (le_refl ht)
        · exact absurd hbs hold
      · rw [hbacklog, if_neg hlt] at hmem
        exact absurd hmem hold
    · exact ih (enqueueOne a ht s).2 hnew hmem

/-- An address occurring in the pass with a stale recorded height ends the
pass recorded at exactly the observation height. -/
theorem enqueueMany_mem_seen (l : List String) (ht : Int) (s : BotState)
    (b : String) (hmem : b ∈ l)
    (hstale : (lookupSeen s.seen_borrow_block b).getD (-1) < ht) :
    lookupSeen (enqueueManyNewer l ht s).2.seen_borrow_block b = some ht := by
  induction l generalizing s with
  | nil => exact absurd hmem (List.not_mem_nil b)
  | cons a rest ih =>
    simp only [enqueueManyNewer]
    by_cases hab : a = b
    · subst hab
      have hseen := enqueueOne_seen a ht s a
      rw [if_pos ⟨rfl, hstale⟩] at hseen
      exact enqueueMany_seen_stable rest ht _ a ht hseen (le_refl ht)
    · have hmem2 : b ∈ rest := by
        rcases List.mem_cons.1 hmem with h | h
        · exact absurd h.symm hab
        · exact h
      apply ih _ hmem2
      have hseen := enqueueOne_seen a ht s b
      rw [if_neg (fun hc => hab hc.1)] at hseen
      rw [hseen]
      exact hstale

/-! ### Claim C1: dedup/enqueue freshness -/

/-- C1 counterexample: enqueuing address `A` at height 1 and then at
height 2 (with the backlog entry not drained in between) reports
"newly enqueued" for the first call but "not newly enqueued" (added
count 0) for the second, even though the seen height does update to 2 —
refuting the claim that both calls report "newly enqueued". -/
theorem c1_enqueue_counterexample :
    (enqueueManyNewer ["A"] 1 ({} : BotState)).1 = 1 ∧
    (enqueueManyNewer ["A"] 2 (enqueueManyNewer ["A"] 1 ({} : BotState)).2).1 = 0 ∧
    lookupSeen
      (enqueueManyNewer ["A"] 2
        (enqueueManyNewer ["A"] 1 ({} : BotState)).2).2.seen_borrow_block "A" =
      some 2 := by
  decide

/-- C1 (amended): `_enqueue_many_newer` updates the recorded seen height
to the observed height whenever the previously recorded height
(default −1) is strictly below it, but reports "newly enqueued" iff
additionally the address is not currently in the backlog.  Hence a fresh
address at `h1` is newly enqueued with seen height `h1`; a later call at
`h2 > h1` always updates the seen height to `h2` and is newly enqueued
iff the backlog entry was drained in between; and a repeated call at the
same height reports "not newly enqueued" and changes nothing. -/
theorem c1_enqueue_freshness (s : BotState) (a : String) (h1 h2 : Int)
    (hfresh : lookupSeen s.seen_borrow_block a = none) (hb : a ∉ s.backlog)
    (h1pos : -1 < h1) (hlt : h1 < h2) :
    (enqueueManyNewer [a] h1 s).1 = 1 ∧
    lookupSeen (enqueueManyNewer [a] h1 s).2.seen_borrow_block a = some h1 ∧
    a ∈ (enqueueManyNewer [a] h1 s).2.backlog ∧
    (∀ t : BotState, lookupSeen t.seen_borrow_block a = some h1 →
      (enqueueManyNewer [a] h2 t).1 = (if a ∈ t.backlog then 0 else 1) ∧
      lookupSeen (enqueueManyNewer [a] h2 t).2.seen_borrow_block a = some h2) ∧
    (∀ t : BotState, lookupSeen t.seen_borrow_block a = some h1 →
      enqueueManyNewer [a] h1 t = (0, t)) := by
  refine ⟨?_, ?_, ?_, ?_, ?_⟩
  · simp [enqueueManyNewer, enqueueOne, hfresh, h1pos, hb]
  · simp [enqueueManyNewer, enqueueOne, hfresh, h1pos, hb, lookupSeen_setKey]
  · simp [enqueueManyNewer, enqueueOne, hfresh, h1pos, hb]
  · intro t hts
    constructor
    · by_cases htb : a ∈ t.backlog <;>
        simp [enqueueManyNewer, enqueueOne, hts, hlt, htb]
    · by_cases htb : a ∈ t.backlog <;>
        simp [enqueueManyNewer, enqueueOne, hts, hlt, htb, lookupSeen_setKey]
  · intro t hts
    simp [enqueueManyNewer, enqueueOne, hts]

/-- Witness for `c1_enqueue_freshness` at `a = "A"`, `h1 = 0`, `h2 = 1`
from the default (empty) state. -/
theorem c1_enqueue_freshness_witness :
    lookupSeen ({} : BotState).seen_borrow_block "A" = none ∧
    (enqueueManyNewer ["A"] 0 ({} : BotState)).1 = 1 ∧
    lookupSeen (enqueueManyNewer ["A"] 0 ({} : BotState)).2.seen_borrow_block "A" =
      some 0 :=
  ⟨by decide,
    (c1_enqueue_freshness {} "A" 0 1 (by decide) (by decide) (by decide)
      (by decide)).1,
    (c1_enqueue_freshness {} "A" 0 1 (by decide) (by decide) (by decide)
      (by decide)).2.1⟩

/-! ### Claim C3: fresh-start scenario at head 250, chunk 100 -/

/-- C3: with the default `chunk_blocks = 100`, a fresh start (no
checkpoint, no startup block) at head 250 seeds both frontiers from the
head; the forward policy immediately reports no window, and successive
backfill plan/commit cycles produce windows `[151,250]`, `[51,150]`,
`[1,50]`, and then none, with `next_end` driven to 0. -/
theorem c3_fresh_start_scenario :
    (planWindow (initState none none 250 ∅) 250 Mode.forward).2 = none ∧
    (planWindow (initState none none 250 ∅) 250 Mode.backfill).2 =
      some (151, 250) ∧
    (planWindow (backfillStep 250 (initState none none 250 ∅)) 250
        Mode.backfill).2 = some (51, 150) ∧
    (planWindow (backfillStep 250 (backfillStep 250 (initState none none 250 ∅)))
        250 Mode.backfill).2 = some (1, 50) ∧
    (planWindow
        (backfillStep 250
          (backfillStep 250 (backfillStep 250 (initState none none 250 ∅))))
        250 Mode.backfill).2 = none ∧
    (backfillStep 250
        (backfillStep 250 (backfillStep 250 (initState none none 250 ∅)))).next_end =
      some 0 := by
  decide

/-! ### Claim C7: checkpoint round-trip -/

/-- C7: deserializing a serialized state reproduces `last_scan_block`,
`next_end`, `seen_borrow_block` and the `backlog` set exactly (the
backlog travels through a sorted list). -/
theorem c7_checkpoint_roundtrip (s : BotState) :
    (stateFromJsonable (stateToJsonable s)).last_scan_block = s.last_scan_block ∧
    (stateFromJsonable (stateToJsonable s)).next_end = s.next_end ∧
    (stateFromJsonable (stateToJsonable s)).seen_borrow_block =
      s.seen_borrow_block ∧
    (stateFromJsonable (stateToJsonable s)).backlog = s.backlog := by
  refine ⟨rfl, rfl, rfl, ?_⟩
  simp [stateFromJsonable, stateToJsonable, Finset.sort_toFinset]

/-! ### Claim C9: lock contention leaves the state unchanged -/

/-- C9: when the guard cannot be acquired, `_sync_once` returns the
distinct "skipped, locked" outcome (never a statistics outcome) with the
state untouched, and `_process_live_borrow` does the same whenever the
record matches a tracked reserve (the only case in which it attempts the
lock). -/
theorem c9_lock_contention_preserves_state :
    (∀ (getLogs : Int → Int → Except Unit (List LogRec)) (s : BotState)
        (head : Int) (mode : Mode) (maxW : Nat),
      syncOnce getLogs false s head mode maxW = (SyncResult.skippedLocked, s) ∧
      ∀ st, (syncOnce getLogs false s head mode maxW).1 ≠ SyncResult.stats st) ∧
    (∀ (s : BotState) (log : LogRec) (d : String),
      maybeDebtor log s.allowed_reserves = some d → d ≠ "" →
      processLiveBorrow false s log = (LiveResult.skippedLocked, s) ∧
      ∀ added bs st,
        (processLiveBorrow false s log).1 ≠ LiveResult.event added bs st) := by
  constructor
  · intro getLogs s head mode maxW
    constructor
    · simp [syncOnce]
    · intro st
      simp [syncOnce]
  · intro s log d hd hne
    constructor
    · simp [processLiveBorrow, hd, hne]
    · intro added bs st
      simp [processLiveBorrow, hd, hne]

/-- Witness for `c9_lock_contention_preserves_state`: a contended tick and
a contended matching live event at concrete inputs. -/
theorem c9_lock_contention_witness :
    syncOnce (fun _ _ => Except.ok []) false ({} : BotState) 10 Mode.forward 4 =
      (SyncResult.skippedLocked, ({} : BotState)) ∧
    processLiveBorrow false { allowed_reserves := {"R"} }
        ⟨some "R", "A", some 5⟩ =
      (LiveResult.skippedLocked, { allowed_reserves := {"R"} }) :=
  ⟨(c9_lock_contention_preserves_state.1 (fun _ _ => Except.ok []) {} 10
      Mode.forward 4).1,
    (c9_lock_contention_preserves_state.2 { allowed_reserves := {"R"} }
      ⟨some "R", "A", some 5⟩ "A" (by decide) (by decide)).1⟩

/-! ### Claim C8: per-sub-range fault isolation in the log fetcher -/

theorem iterBlockRanges_of_stop_lt (startB stopB step : Int)
    (h : stopB < startB) : iterBlockRanges startB stopB step = [] := by
  have h0 : (stopB + 1 - startB).toNat = 0 := by omega
  rw [iterBlockRanges, h0]
  rfl

theorem iterLogsRange_eq_flatten (getLogs : Int → Int → Except Unit (List LogRec))
    (startB stopB step : Int) :
    iterLogsRange getLogs startB stopB step =
      ((iterBlockRanges startB stopB step).map fun w =>
        match getLogs w.1 w.2 with
        | .ok logs => logs
        | .error _ => []).flatten := by
  rw [iterLogsRange]
  by_cases h : stopB < startB
  · rw [if_pos h, iterBlockRanges_of_stop_lt _ _ _ h]
    rfl
  · rw [if_neg h]
    rfl

/-- C8: with a provider that fails on exactly the sub-range `bad` and
succeeds with `recs w` on every other sub-range `w`, the whole window's
fetch completes and equals the per-sub-range concatenation in which the
failing sub-range contributes zero records; in particular every record of
every other sub-range is yielded. -/
theorem c8_fault_isolation (recs : Int × Int → List LogRec) (bad : Int × Int)
    (startB stopB step : Int) :
    iterLogsRange
        (fun x y => if (x, y) = bad then .error () else .ok (recs (x, y)))
        startB stopB step =
      ((iterBlockRanges startB stopB step).map fun w =>
        if w = bad then [] else recs w).flatten ∧
    ∀ w ∈ iterBlockRanges startB stopB step, w ≠ bad → ∀ r ∈ recs w,
      r ∈ iterLogsRange
        (fun x y => if (x, y) = bad then .error () else .ok (recs (x, y)))
        startB stopB step := by
  have heq : iterLogsRange
      (fun x y => if (x, y) = bad then .error () else .ok (recs (x, y)))
      startB stopB step =
      ((iterBlockRanges startB stopB step).map fun w =>
        if w = bad then [] else recs w).flatten := by
    rw [iterLogsRange_eq_flatten]
    congr 1
    apply List.map_congr_left
    intro w _
    by_cases hw : w = bad <;> simp [hw]
  refine ⟨heq, ?_⟩
  intro w hw hne r hr
  rw [heq]
  apply List.mem_flatten.2
  refine ⟨recs w, ?_, hr⟩
  have : (if w = bad then ([] : List LogRec) else recs w) = recs w := if_neg hne
  rw [← this]
  exact List.mem_map_of_mem _ hw

/-- Witness for `c8_fault_isolation`: the window `[1, 20]` with sub-chunk
size 10 splits into `[1,10]` and `[11,20]`; failing `[1,10]` still yields
the record of `[11,20]`. -/
theorem c8_fault_isolation_witness :
    (⟨some "R", "A", some 15⟩ : LogRec) ∈
      iterLogsRange
        (fun x y => if (x, y) = ((1 : Int), (10 : Int)) then .error ()
          else .ok [⟨some "R", "A", some 15⟩])
        1 20 10 :=
  (c8_fault_isolation (fun _ => [⟨some "R", "A", some 15⟩]) (1, 10) 1 20 10).2
    (11, 20) (by decide) (by decide) ⟨some "R", "A", some 15⟩ (by decide)

/-! ### Claim C10: window scans record discovery at the window stop -/

/-- C10 counterexample: an address discovered in the window `[1, 10]`
whose seen height is already recorded as 20 keeps the recorded height 20
after the scan — it is not recorded at the window's stop bound 10,
refuting the universal claim. -/
theorem c10_counterexample :
    "A" ∈ iterBorrowersRange (fun _ _ => .ok [⟨some "R", "A", some 3⟩]) 1 10
      ({ allowed_reserves := {"R"}, seen_borrow_block := [("A", 20)] } :
        BotState).rpc_max_log_range
      ({ allowed_reserves := {"R"}, seen_borrow_block := [("A", 20)] } :
        BotState).allowed_reserves ∧
    lookupSeen
      (scanWindow (fun _ _ => .ok [⟨some "R", "A", some 3⟩])
        { allowed_reserves := {"R"}, seen_borrow_block := [("A", 20)] }
        1 10).2.seen_borrow_block "A" = some 20 ∧
    (some (20 : Int) ≠ some (10 : Int)) := by
  decide

/-- C10 (amended): `_scan_window` enqueues every debtor discovered
anywhere in the window with observation height `stop` (the window's
upper bound) rather than the block height of the log record that
mentioned it: a discovered address whose previously recorded seen height
is below `stop` ends the scan recorded at exactly `stop` (so its
recorded height can exceed the height of its actual latest borrow
event), and one already recorded at `stop` or above keeps its previous
height. -/
theorem c10_scan_records_at_stop
    (getLogs : Int → Int → Except Unit (List LogRec)) (s : BotState)
    (start stop : Int) :
    ∀ a ∈ iterBorrowersRange getLogs start stop s.rpc_max_log_range
        s.allowed_reserves,
      ((lookupSeen s.seen_borrow_block a).getD (-1) < stop →
        lookupSeen (scanWindow getLogs s start stop).2.seen_borrow_block a =
          some stop) ∧
      (∀ p, lookupSeen s.seen_borrow_block a = some p → stop ≤ p →
        lookupSeen (scanWindow getLogs s start stop).2.seen_borrow_block a =
          some p) := by
  intro a ha
  constructor
  · intro hstale
    exact enqueueMany_mem_seen _ stop s a (List.mem_dedup.2 ha) hstale
  · intro p hp hge
    exact enqueueMany_seen_stable _ stop s a p hp hge

/-- Witness for `c10_scan_records_at_stop`: a single Borrow log at block
height 3 inside the window `[1, 10]` gets its debtor recorded at height
10, above the height of the event itself. -/
theorem c10_scan_records_at_stop_witness :
    lookupSeen
      (scanWindow (fun _ _ => .ok [⟨some "R", "A", some 3⟩])
        { allowed_reserves := {"R"} } 1 10).2.seen_borrow_block "A" =
      some 10 ∧ (10 : Int) ≠ 3 :=
  ⟨(c10_scan_records_at_stop (fun _ _ => .ok [⟨some "R", "A", some 3⟩])
      { allowed_reserves := {"R"} } 1 10 "A" (by decide)).1 (by decide),
    by decide⟩

/-! ### Claim C6: the backlog/seen-height invariant -/

/-- `enqueueManyNewer` preserves the backlog/seen invariant: surviving
backlog members keep (at least) their recorded heights, and addresses
enqueued by this pass are recorded at the observation height. -/
theorem seenGE_enqueueMany (l : List String) (ht : Int) (s : BotState)
    (g : String → Int) (H : SeenGE s g) :
    SeenGE (enqueueManyNewer l ht s).2
      (fun a => if a ∈ s.backlog then g a else ht) := by
  intro b hb
  by_cases hbs : b ∈ s.backlog
  · obtain ⟨h, hh, hg⟩ := H b hbs
    obtain ⟨h2, hh2, hle⟩ := enqueueMany_seen_mono l ht s b h hh
    refine ⟨h2, hh2, ?_⟩
    simp only [hbs, if_true]
    exact le_trans hg hle
  · refine ⟨ht, enqueueMany_new_seen l ht s b hb hbs, ?_⟩
    simp [hbs]

/-- The backlog survives a checkpoint round-trip unchanged (shared by the
round-trip and invariant claims). -/
theorem roundtrip_backlog (s : BotState) :
    (stateFromJsonable (stateToJsonable s)).backlog = s.backlog := by
  simp [stateFromJsonable, stateToJsonable, Finset.sort_toFinset]

/-- C6: every state-mutating operation of the subsystem — window scans,
live-event ingestion, startup capping, and a checkpoint round-trip —
preserves the invariant that each backlog member has a recorded seen
height at least the height at which it was enqueued (tracked by the
ghost map `g`; addresses enqueued by the operation get the operation's
observation height). -/
theorem c6_backlog_seen_invariant :
    (∀ (getLogs : Int → Int → Except Unit (List LogRec)) (s : BotState)
        (g : String → Int) (start stop : Int), SeenGE s g →
      SeenGE (scanWindow getLogs s start stop).2
        (fun a => if a ∈ s.backlog then g a else stop)) ∧
    (∀ (got : Bool) (s : BotState) (g : String → Int) (log : LogRec),
      SeenGE s g →
      SeenGE (processLiveBorrow got s log).2
        (fun a => if a ∈ s.backlog then g a
          else log.block_number.getD s.last_scan_block)) ∧
    (∀ (s : BotState) (g : String → Int) (head : Int), SeenGE s g →
      SeenGE (capToHead s head) g) ∧
    (∀ (s : BotState) (g : String → Int), SeenGE s g →
      SeenGE (stateFromJsonable (stateToJsonable s)) g) := by
  have hsame : ∀ (s : BotState) (g : String → Int) (h : Int), SeenGE s g →
      SeenGE s (fun a => if a ∈ s.backlog then g a else h) := by
    intro s g h H b hb
    obtain ⟨x, hx, hg⟩ := H b hb
    refine ⟨x, hx, ?_⟩
    simp only [hb, if_true]
    exact hg
  refine ⟨?_, ?_, ?_, ?_⟩
  · intro getLogs s g start stop H
    exact seenGE_enqueueMany _ stop s g H
  · intro got s g log H
    unfold processLiveBorrow
    cases hd : maybeDebtor log s.allowed_reserves with
    | none => exact hsame s g _ H
    | some d =>
      by_cases hempty : d = ""
      · simp only [hempty, if_true]
        exact hsame s g _ H
      · simp only [hempty, if_false]
        cases got with
        | false => exact hsame s g _ H
        | true => exact seenGE_enqueueMany [d] _ s g H
  · intro s g head H b hb
    obtain ⟨x, hx, hg⟩ := H b hb
    exact ⟨x, hx, hg⟩
  · intro s g H b hb
    rw [roundtrip_backlog] at hb
    obtain ⟨x, hx, hg⟩ := H b hb
    exact ⟨x, hx, hg⟩

/-- Witness for `c6_backlog_seen_invariant`: instances of the capping and
window-scan conjuncts from the default (empty-backlog) state, whose
invariant holds vacuously. -/
theorem c6_backlog_seen_invariant_witness :
    SeenGE (capToHead ({} : BotState) 5) (fun _ => 0) ∧
    SeenGE
      (scanWindow (fun _ _ => .ok [⟨some "R", "A", some 3⟩])
        { allowed_reserves := {"R"} } 1 10).2
      (fun a => if a ∈ ({ allowed_reserves := {"R"} } : BotState).backlog
        then 0 else 10) :=
  ⟨c6_backlog_seen_invariant.2.2.1 {} (fun _ => 0) 5
      (fun a ha => absurd ha (Finset.not_mem_empty a)),
    c6_backlog_seen_invariant.1 (fun _ _ => .ok [⟨some "R", "A", some 3⟩])
      { allowed_reserves := {"R"} } (fun _ => 0) 1 10
      (fun a ha => absurd ha (Finset.not_mem_empty a))⟩

/-! ### Claim C2: block-range splitter coverage -/

theorem intList_of_stop_lt (a b : Int) (h : b < a) : intList a b = [] := by
  have h0 : (b + 1 - a).toNat = 0 := by omega
  simp [intList, h0]

theorem intList_split (a e b : Int) (h1 : a ≤ e + 1) (h2 : e ≤ b) :
    intList a e ++ intList (e + 1) b = intList a b := by
  have hm : (b + 1 - a).toNat = (e + 1 - a).toNat + (b - e).toNat := by omega
  have hr : (b + 1 - (e + 1)).toNat = (b - e).toNat := by omega
  rw [intList, intList, intList, hm, hr, List.range_add, List.map_append,
    List.map_map]
  congr 1
  apply List.map_congr_left
  intro i _
  simp only [Function.comp_apply, Int.ofNat_eq_coe]
  push_cast
  omega

theorem iterBlockRangesGo_of_stop_lt (step stopB : Int) (fuel : Nat)
    (cur : Int) (h : stopB < cur) :
    iterBlockRangesGo step stopB fuel cur = [] := by
  cases fuel with
  | zero => rfl
  | succ n => rw [iterBlockRangesGo, if_neg (by omega)]

theorem iterBlockRangesGo_head (step stopB : Int) (fuel : Nat) (cur : Int)
    (hc : cur ≤ stopB) (hf : 1 ≤ fuel) :
    (iterBlockRangesGo step stopB fuel cur).head? =
      some (cur, min (cur + step - 1) stopB) := by
  cases fuel with
  | zero => omega
  | succ n => rw [iterBlockRangesGo, if_pos hc]; rfl

theorem iterBlockRangesGo_bounds (step stopB : Int) (hstep : 1 ≤ step) :
    ∀ (fuel : Nat) (cur : Int), ∀ w ∈ iterBlockRangesGo step stopB fuel cur,
      cur ≤ w.1 ∧ w.1 ≤ w.2 ∧ w.2 ≤ stopB ∧ w.2 - w.1 + 1 ≤ step := by
  intro fuel
  induction fuel with
  | zero => intro cur w hw; simp [iterBlockRangesGo] at hw
  | succ n ih =>
    intro cur w hw
    rw [iterBlockRangesGo] at hw
    by_cases hc : cur ≤ stopB
    · rw [if_pos hc] at hw
      rcases List.mem_cons.1 hw with rfl | hw2
      · refine ⟨le_refl _, ?_, ?_, ?_⟩ <;> simp <;> omega
      · have hrec := ih _ w hw2
        exact ⟨by omega, hrec.2.1, hrec.2.2.1, hrec.2.2.2⟩
    · rw [if_neg hc] at hw
      simp at hw

theorem iterBlockRangesGo_coverage (step stopB : Int) (hstep : 1 ≤ step) :
    ∀ (fuel : Nat) (cur : Int), (stopB + 1 - cur).toNat ≤ fuel →
      ((iterBlockRangesGo step stopB fuel cur).flatMap
        fun w => intList w.1 w.2) = intList cur stopB := by
  intro fuel
  induction fuel with
  | zero =>
    intro cur hf
    have hlt : stopB < cur := by omega
    simp [iterBlockRangesGo, intList_of_stop_lt _ _ hlt]
  | succ n ih =>
    intro cur hf
    rw [iterBlockRangesGo]
    by_cases hc : cur ≤ stopB
    · rw [if_pos hc, List.flatMap_cons,
        ih (min (cur + step - 1) stopB + 1) (by omega)]
      exact intList_split cur (min (cur + step - 1) stopB) stopB (by omega)
        (by omega)
    · rw [if_neg hc]
      simp [intList_of_stop_lt cur stopB (by omega)]

theorem iterBlockRangesGo_chain (step stopB : Int) (hstep : 1 ≤ step) :
    ∀ (fuel : Nat) (cur : Int), (stopB + 1 - cur).toNat ≤ fuel →
      List.Chain' (fun w w2 : Int × Int => w2.1 = w.2 + 1)
        (iterBlockRangesGo step stopB fuel cur) := by
  intro fuel
  induction fuel with
  | zero => intro cur _; simp [iterBlockRangesGo]
  | succ n ih =>
    intro cur hf
    rw [iterBlockRangesGo]
    by_cases hc : cur ≤ stopB
    · rw [if_pos hc]
      refine List.chain'_cons'.2 ⟨?_, ih _ (by omega)⟩
      intro w2 hw2
      by_cases he : min (cur + step - 1) stopB + 1 ≤ stopB
      · rw [iterBlockRangesGo_head step stopB n _ he (by omega)] at hw2
        rw [Option.mem_def, Option.some.injEq] at hw2
        rw [← hw2]
      · rw [iterBlockRangesGo_of_stop_lt step stopB n _ (by omega)] at hw2
        simp at hw2
    · rw [if_neg hc]
      exact List.chain'_nil

/-- C2: for any `start`, `stop` and `step ≥ 1`, the block-range splitter
yields windows that each lie inside `[start, stop]` with length at most
`step`, whose concatenated block lists reconstruct `[start, stop]`
exactly (so they are ascending, with no gaps and no overlaps, and each
window starts right after its predecessor ends); the sequence is empty
when `stop < start`. -/
theorem c2_block_range_coverage (startB stopB step : Int) (hstep : 1 ≤ step) :
    (stopB < startB → iterBlockRanges startB stopB step = []) ∧
    (∀ w ∈ iterBlockRanges startB stopB step,
      startB ≤ w.1 ∧ w.1 ≤ w.2 ∧ w.2 ≤ stopB ∧ w.2 - w.1 + 1 ≤ step) ∧
    ((iterBlockRanges startB stopB step).flatMap fun w => intList w.1 w.2) =
      intList startB stopB ∧
    List.Chain' (fun w w2 : Int × Int => w2.1 = w.2 + 1)
      (iterBlockRanges startB stopB step) := by
  refine ⟨iterBlockRanges_of_stop_lt startB stopB step, ?_, ?_, ?_⟩
  · intro w hw
    exact iterBlockRangesGo_bounds step stopB hstep _ startB w hw
  · exact iterBlockRangesGo_coverage step stopB hstep _ startB (le_refl _)
  · exact iterBlockRangesGo_chain step stopB hstep _ startB (le_refl _)

/-- Witness for `c2_block_range_coverage` at the window `[1, 10]` with
`step = 4`. -/
theorem c2_block_range_coverage_witness :
    ((iterBlockRanges 1 10 4).flatMap fun w => intList w.1 w.2) =
      intList 1 10 ∧
    iterBlockRanges 1 10 4 = [(1, 4), (5, 8), (9, 10)] :=
  ⟨(c2_block_range_coverage 1 10 4 (by decide)).2.2.1, by decide⟩

/-! ### Claim C4: backfill termination -/

theorem backfillStep_chunk (head : Int) (s : BotState) :
    (backfillStep head s).chunk_blocks = s.chunk_blocks := by
  unfold backfillStep planWindow commitWindow
  rcases s.next_end with _ | v <;> simp <;> split_ifs <;> rfl

theorem backfillStep_next_end_pos (head : Int) (s : BotState)
    (hc : 1 ≤ s.chunk_blocks) (v : Int) (hv : s.next_end = some v)
    (h1 : 1 ≤ v) (hle : v ≤ head) :
    (backfillStep head s).next_end =
      some (max 1 (v - s.chunk_blocks + 1) - 1) ∧
    (planWindow s head .backfill).2 = some (max 1 (v - s.chunk_blocks + 1), v) := by
  have hgt : ¬v > head := by omega
  have hlt : ¬v < 1 := by omega
  have hub : ¬v < max 1 (v - s.chunk_blocks + 1) := by omega
  unfold backfillStep planWindow commitWindow
  simp [hv, hgt, hlt, hub]

theorem backfillStep_anchor (head : Int) (s : BotState)
    (hc : 1 ≤ s.chunk_blocks) (v : Int) (hv : s.next_end = some v)
    (hgt : v > head) (hh : 1 ≤ head) :
    (backfillStep head s).next_end =
      some (max 1 (head - s.chunk_blocks + 1) - 1) ∧
    (planWindow s head .backfill).2 =
      some (max 1 (head - s.chunk_blocks + 1), head) := by
  have hlt : ¬head < 1 := by omega
  have hub : ¬head < max 1 (head - s.chunk_blocks + 1) := by omega
  unfold backfillStep planWindow commitWindow
  simp [hv, hgt, hlt, hub]

theorem backfillStep_of_none (head : Int) (s : BotState)
    (hc : 1 ≤ s.chunk_blocks) (hv : s.next_end = none) (hh : 1 ≤ head) :
    (backfillStep head s).next_end =
      some (max 1 (head - s.chunk_blocks + 1) - 1) := by
  have hlt : ¬head < 1 := by omega
  have hub : ¬head < max 1 (head - s.chunk_blocks + 1) := by omega
  unfold backfillStep planWindow commitWindow
  simp [hv, hlt, hub]

theorem backfillStep_zero (head : Int) (s : BotState)
    (hv : s.next_end = some 0) (hh : 1 ≤ head) :
    planWindow s head .backfill = (s, none) ∧ backfillStep head s = s := by
  have hgt : ¬(0 : Int) > head := by omega
  have hself : ({ s with next_end := some 0 } : BotState) = s := by
    rw [← hv]
  have hplan : planWindow s head .backfill = (s, none) := by
    unfold planWindow
    simp only [hv, hgt, if_false]
    rw [if_pos (by omega : (0 : Int) < 1), hself]
  refine ⟨hplan, ?_⟩
  unfold backfillStep
  rw [hplan]

theorem backfill_reaches_zero (head : Int) (hh : 1 ≤ head) :
    ∀ (N : Nat) (s : BotState), 1 ≤ s.chunk_blocks →
      ∀ v, s.next_end = some v → 0 ≤ v → v.toNat ≤ N →
      ∃ n, ((backfillStep head)^[n] s).next_end = some 0 ∧
        planWindow ((backfillStep head)^[n] s) head .backfill =
          ((backfillStep head)^[n] s, none) := by
  intro N
  induction N with
  | zero =>
    intro s hc v hv h0 hN
    have hz : v = 0 := by omega
    subst hz
    exact ⟨0, hv, (backfillStep_zero head s hv hh).1⟩
  | succ N ih =>
    intro s hc v hv h0 hN
    by_cases hz : v = 0
    · subst hz
      exact ⟨0, hv, (backfillStep_zero head s hv hh).1⟩
    · have h1 : 1 ≤ v := by omega
      have hc2 : 1 ≤ (backfillStep head s).chunk_blocks := by
        rw [backfillStep_chunk]; exact hc
      by_cases hle : v ≤ head
      · have hstep := (backfillStep_next_end_pos head s hc v hv h1 hle).1
        obtain ⟨n, hn1, hn2⟩ := ih (backfillStep head s) hc2 _ hstep
          (by omega) (by omega)
        refine ⟨n + 1, ?_, ?_⟩
        · rw [Function.iterate_succ_apply]; exact hn1
        · rw [Function.iterate_succ_apply]; exact hn2
      · have hstep := (backfillStep_anchor head s hc v hv (by omega) hh).1
        obtain ⟨n, hn1, hn2⟩ := ih (backfillStep head s) hc2 _ hstep
          (by omega) (by omega)
        refine ⟨n + 1, ?_, ?_⟩
        · rw [Function.iterate_succ_apply]; exact hn1
        · rw [Function.iterate_succ_apply]; exact hn2

/-- C4: for a fixed head `≥ 1` and `chunk_blocks ≥ 1`, every backfill
plan/commit cycle that produces a window strictly decreases `next_end`
(keeping it `≥ 0`), and from any start (`next_end` unset or `≥ 0`)
finitely many cycles drive `next_end` to exactly 0, after which the
backfill planner returns no window and leaves the state unchanged. -/
theorem c4_backfill_termination (head : Int) (hh : 1 ≤ head) :
    (∀ (s : BotState), 1 ≤ s.chunk_blocks → ∀ v w, s.next_end = some v →
      (planWindow s head .backfill).2 = some w →
      ∃ v2, (backfillStep head s).next_end = some v2 ∧ v2 < v ∧ 0 ≤ v2) ∧
    (∀ (s : BotState), 1 ≤ s.chunk_blocks →
      (s.next_end = none ∨ ∃ v, s.next_end = some v ∧ 0 ≤ v) →
      ∃ n, ((backfillStep head)^[n] s).next_end = some 0 ∧
        planWindow ((backfillStep head)^[n] s) head .backfill =
          ((backfillStep head)^[n] s, none)) := by
  constructor
  · intro s hc v w hv hplan
    by_cases hle : v ≤ head
    · by_cases h1 : 1 ≤ v
      · refine ⟨max 1 (v - s.chunk_blocks + 1) - 1,
          (backfillStep_next_end_pos head s hc v hv h1 hle).1, by omega, by omega⟩
      · exfalso
        have hgt : ¬v > head := by omega
        have hlt : v < 1 := by omega
        unfold planWindow at hplan
        simp [hv, hgt, hlt] at hplan
    · refine ⟨max 1 (head - s.chunk_blocks + 1) - 1,
        (backfillStep_anchor head s hc v hv (by omega) hh).1, by omega, by omega⟩
  · intro s hc hstart
    rcases hstart with hnone | ⟨v, hv, h0⟩
    · have hstep := backfillStep_of_none head s hc hnone hh
      have hc2 : 1 ≤ (backfillStep head s).chunk_blocks := by
        rw [backfillStep_chunk]; exact hc
      obtain ⟨n, hn1, hn2⟩ := backfill_reaches_zero head hh
        (max 1 (head - s.chunk_blocks + 1) - 1).toNat (backfillStep head s) hc2
        _ hstep (by omega) (le_refl _)
      refine ⟨n + 1, ?_, ?_⟩
      · rw [Function.iterate_succ_apply]; exact hn1
      · rw [Function.iterate_succ_apply]; exact hn2
    · exact backfill_reaches_zero head hh v.toNat s hc v hv h0 (le_refl _)

/-- Witness for `c4_backfill_termination`: from the fresh state at head 3
(with default `chunk_blocks = 100`), backfill reaches `next_end = 0`. -/
theorem c4_backfill_termination_witness :
    ∃ n, ((backfillStep 3)^[n] ({ next_end := some 3 } : BotState)).next_end =
        some 0 ∧
      planWindow ((backfillStep 3)^[n] ({ next_end := some 3 } : BotState)) 3
          Mode.backfill =
        ((backfillStep 3)^[n] ({ next_end := some 3 } : BotState), none) :=
  (c4_backfill_termination 3 (by decide)).2 { next_end := some 3 }
    (by decide) (Or.inr ⟨3, rfl, by decide⟩)

/-! ### Claim C5: forward frontier monotonicity across ticks -/

theorem syncLoop_succ (getLogs : Int → Int → Except Unit (List LogRec))
    (head : Int) (mode : Mode) (fuel : Nat) (acc : LoopAcc) (s : BotState) :
    syncLoop getLogs head mode (fuel + 1) acc s =
      match planWindow s head mode with
      | (s1, none) => (acc, s1)
      | (s1, some (start, stop)) =>
        syncLoop getLogs head mode fuel
          { windows := acc.windows + 1
            uniqTotal := acc.uniqTotal + (scanWindow getLogs s1 start stop).1.1
            addedTotal := acc.addedTotal + (scanWindow getLogs s1 start stop).1.2
            firstStart := some (acc.firstStart.getD start)
            lastStop := some stop }
          (commitWindow (scanWindow getLogs s1 start stop).2 head mode start
            stop) := rfl

theorem planWindow_forward_fst (s : BotState) (head : Int) :
    (planWindow s head .forward).1 = s := by
  dsimp only [planWindow]
  split_ifs <;> rfl

theorem planWindow_backfill_frame (s : BotState) (head : Int) :
    (planWindow s head .backfill).1.last_scan_block = s.last_scan_block ∧
    (planWindow s head .backfill).1.chunk_blocks = s.chunk_blocks ∧
    (planWindow s head .backfill).1.scan_interval_blocks =
      s.scan_interval_blocks := by
  unfold planWindow
  rcases s.next_end with _ | v <;> simp <;> split_ifs <;> simp

theorem scanWindow_frame (getLogs : Int → Int → Except Unit (List LogRec))
    (s : BotState) (a b : Int) :
    (scanWindow getLogs s a b).2.last_scan_block = s.last_scan_block ∧
    (scanWindow getLogs s a b).2.chunk_blocks = s.chunk_blocks ∧
    (scanWindow getLogs s a b).2.scan_interval_blocks =
      s.scan_interval_blocks := by
  have h := enqueueMany_frame
    ((iterBorrowersRange getLogs a b s.rpc_max_log_range
      s.allowed_reserves).dedup) b s
  exact ⟨h.1, h.2.2.1, h.2.2.2.1⟩

theorem syncLoop_forward_mono (getLogs : Int → Int → Except Unit (List LogRec))
    (head : Int) :
    ∀ (fuel : Nat) (acc : LoopAcc) (s : BotState), 1 ≤ s.chunk_blocks →
      s.last_scan_block ≤
        (syncLoop getLogs head .forward fuel acc s).2.last_scan_block ∧
      (syncLoop getLogs head .forward fuel acc s).2.last_scan_block ≤
        max s.last_scan_block head ∧
      (syncLoop getLogs head .forward fuel acc s).2.chunk_blocks =
        s.chunk_blocks ∧
      (syncLoop getLogs head .forward fuel acc s).2.scan_interval_blocks =
        s.scan_interval_blocks := by
  intro fuel
  induction fuel with
  | zero =>
    intro acc s _
    exact ⟨le_refl _, le_max_left _ _, rfl, rfl⟩
  | succ n ih =>
    intro acc s hc
    rw [syncLoop_succ]
    by_cases hgt : s.last_scan_block + 1 > head
    · have hplan : planWindow s head .forward = (s, none) := by
        dsimp only [planWindow]
        rw [if_pos hgt]
      rw [hplan]
      exact ⟨le_refl _, le_max_left _ _, rfl, rfl⟩
    · have hplan : planWindow s head .forward =
          (s, some (s.last_scan_block + 1,
            min (s.last_scan_block + 1 + s.chunk_blocks - 1) head)) := by
        dsimp only [planWindow]
        rw [if_neg hgt]
      rw [hplan]
      dsimp only
      set st := s.last_scan_block + 1 with hst
      set sp := min (s.last_scan_block + 1 + s.chunk_blocks - 1) head with hsp
      have hframe := scanWindow_frame getLogs s st sp
      have hchunk : (commitWindow (scanWindow getLogs s st sp).2 head .forward
          st sp).chunk_blocks = s.chunk_blocks := hframe.2.1
      have hsi : (commitWindow (scanWindow getLogs s st sp).2 head .forward
          st sp).scan_interval_blocks = s.scan_interval_blocks := hframe.2.2
      have hlast : (commitWindow (scanWindow getLogs s st sp).2 head .forward
          st sp).last_scan_block = sp := rfl
      obtain ⟨hr1, hr2, hr3, hr4⟩ := ih
        { windows := acc.windows + 1
          uniqTotal := acc.uniqTotal + (scanWindow getLogs s st sp).1.1
          addedTotal := acc.addedTotal + (scanWindow getLogs s st sp).1.2
          firstStart := some (acc.firstStart.getD st)
          lastStop := some sp }
        (commitWindow (scanWindow getLogs s st sp).2 head .forward st sp)
        (by rw [hchunk]; exact hc)
      rw [hlast] at hr1 hr2
      rw [hchunk] at hr3
      rw [hsi] at hr4
      refine ⟨?_, ?_, hr3, hr4⟩
      · have hlt : s.last_scan_block < sp := by
          rw [hsp]
          omega
        omega
      · have hle : sp ≤ head := by
          rw [hsp]
          omega
        omega

theorem syncLoop_backfill_frame
    (getLogs : Int → Int → Except Unit (List LogRec)) (head : Int) :
    ∀ (fuel : Nat) (acc : LoopAcc) (s : BotState),
      (syncLoop getLogs head .backfill fuel acc s).2.last_scan_block =
        s.last_scan_block ∧
      (syncLoop getLogs head .backfill fuel acc s).2.chunk_blocks =
        s.chunk_blocks ∧
      (syncLoop getLogs head .backfill fuel acc s).2.scan_interval_blocks =
        s.scan_interval_blocks := by
  intro fuel
  induction fuel with
  | zero =>
    intro acc s
    exact ⟨rfl, rfl, rfl⟩
  | succ n ih =>
    intro acc s
    rw [syncLoop_succ]
    rcases hplan : planWindow s head .backfill with ⟨s1, w⟩
    have hfr := planWindow_backfill_frame s head
    rw [hplan] at hfr
    cases w with
    | none => exact hfr
    | some pw =>
      rcases pw with ⟨st, sp⟩
      dsimp only
      have hsc := scanWindow_frame getLogs s1 st sp
      have hcw : (commitWindow (scanWindow getLogs s1 st sp).2 head .backfill
            st sp).last_scan_block =
            (scanWindow getLogs s1 st sp).2.last_scan_block ∧
          (commitWindow (scanWindow getLogs s1 st sp).2 head .backfill
            st sp).chunk_blocks = (scanWindow getLogs s1 st sp).2.chunk_blocks ∧
          (commitWindow (scanWindow getLogs s1 st sp).2 head .backfill
            st sp).scan_interval_blocks =
            (scanWindow getLogs s1 st sp).2.scan_interval_blocks :=
        ⟨rfl, rfl, rfl⟩
      have hrec := ih
        { windows := acc.windows + 1
          uniqTotal := acc.uniqTotal + (scanWindow getLogs s1 st sp).1.1
          addedTotal := acc.addedTotal + (scanWindow getLogs s1 st sp).1.2
          firstStart := some (acc.firstStart.getD st)
          lastStop := some sp }
        (commitWindow (scanWindow getLogs s1 st sp).2 head .backfill st sp)
      refine ⟨?_, ?_, ?_⟩
      · rw [hrec.1, hcw.1, hsc.1, hfr.1]
      · rw [hrec.2.1, hcw.2.1, hsc.2.1, hfr.2.1]
      · rw [hrec.2.2, hcw.2.2, hsc.2.2, hfr.2.2]

theorem syncOnce_forward_mono
    (getLogs : Int → Int → Except Unit (List LogRec)) (got : Bool)
    (s : BotState) (head : Int) (maxW : Nat) (hc : 1 ≤ s.chunk_blocks) :
    s.last_scan_block ≤
      (syncOnce getLogs got s head .forward maxW).2.last_scan_block ∧
    (syncOnce getLogs got s head .forward maxW).2.last_scan_block ≤
      max s.last_scan_block head ∧
    (syncOnce getLogs got s head .forward maxW).2.chunk_blocks =
      s.chunk_blocks ∧
    (syncOnce getLogs got s head .forward maxW).2.scan_interval_blocks =
      s.scan_interval_blocks := by
  cases got with
  | false => exact ⟨le_refl _, le_max_left _ _, rfl, rfl⟩
  | true => exact syncLoop_forward_mono getLogs head maxW ⟨0, 0, 0, none, none⟩ s hc

theorem syncOnce_backfill_frame
    (getLogs : Int → Int → Except Unit (List LogRec)) (got : Bool)
    (s : BotState) (head : Int) (maxW : Nat) :
    (syncOnce getLogs got s head .backfill maxW).2.last_scan_block =
      s.last_scan_block ∧
    (syncOnce getLogs got s head .backfill maxW).2.chunk_blocks =
      s.chunk_blocks ∧
    (syncOnce getLogs got s head .backfill maxW).2.scan_interval_blocks =
      s.scan_interval_blocks := by
  cases got with
  | false => exact ⟨rfl, rfl, rfl⟩
  | true => exact syncLoop_backfill_frame getLogs head maxW ⟨0, 0, 0, none, none⟩ s

theorem handleBlocks_mono (getLogs : Int → Int → Except Unit (List LogRec))
    (gotF gotB : Bool) (s : BotState) (head : Int) (hc : 1 ≤ s.chunk_blocks) :
    s.last_scan_block ≤
      (handleBlocks getLogs gotF gotB s head).2.last_scan_block ∧
    (handleBlocks getLogs gotF gotB s head).2.last_scan_block ≤
      max s.last_scan_block head ∧
    (handleBlocks getLogs gotF gotB s head).2.chunk_blocks =
      s.chunk_blocks := by
  unfold handleBlocks
  by_cases h1 : head > s.last_scan_block
  · rw [if_pos h1]
    have hf := syncOnce_forward_mono getLogs gotF s head 4 hc
    by_cases h2 :
        (syncOnce getLogs gotF s head .forward 4).2.last_scan_block < head
    · rw [if_pos h2]
      exact ⟨hf.1, hf.2.1, hf.2.2.1⟩
    · rw [if_neg h2]
      by_cases h3 : head -
          (syncOnce getLogs gotF s head .forward 4).2.last_backfill_head <
          (syncOnce getLogs gotF s head .forward 4).2.scan_interval_blocks
      · rw [if_pos h3]
        exact ⟨hf.1, hf.2.1, hf.2.2.1⟩
      · rw [if_neg h3]
        have hb := syncOnce_backfill_frame getLogs gotB
          (syncOnce getLogs gotF s head .forward 4).2 head 1
        refine ⟨?_, ?_, ?_⟩
        · rw [hb.1]
          exact hf.1
        · rw [hb.1]
          exact hf.2.1
        · rw [hb.2.1]
          exact hf.2.2.1
  · rw [if_neg h1]
    by_cases h3 : head - s.last_backfill_head < s.scan_interval_blocks
    · rw [if_pos h3]
      exact ⟨le_refl _, le_max_left _ _, rfl⟩
    · rw [if_neg h3]
      have hb := syncOnce_backfill_frame getLogs gotB s head 1
      refine ⟨?_, ?_, ?_⟩
      · rw [hb.1]
      · rw [hb.1]
        exact le_max_left _ _
      · exact hb.2.1

theorem foldl_max_head_mono (l : List TickInput) :
    ∀ a b : Int, a ≤ b →
      l.foldl (fun m t => max m t.head) a ≤
        l.foldl (fun m t => max m t.head) b := by
  induction l with
  | nil => intro a b h; exact h
  | cons t rest ih =>
    intro a b h
    apply ih
    dsimp only
    omega

theorem runTicks_facts (ticks : List TickInput) :
    ∀ s : BotState, 1 ≤ s.chunk_blocks →
      (runTicks s ticks).chunk_blocks = s.chunk_blocks ∧
      s.last_scan_block ≤ (runTicks s ticks).last_scan_block ∧
      (runTicks s ticks).last_scan_block ≤
        ticks.foldl (fun m t => max m t.head) s.last_scan_block := by
  induction ticks with
  | nil => intro s _; exact ⟨rfl, le_refl _, le_refl _⟩
  | cons t rest ih =>
    intro s hc
    have h1 := handleBlocks_mono t.logs t.gotF t.gotB s t.head hc
    have hc2 : 1 ≤ (handleBlocks t.logs t.gotF t.gotB s t.head).2.chunk_blocks := by
      rw [h1.2.2]
      exact hc
    have h2 := ih (handleBlocks t.logs t.gotF t.gotB s t.head).2 hc2
    have hrun : runTicks s (t :: rest) =
        runTicks (handleBlocks t.logs t.gotF t.gotB s t.head).2 rest := rfl
    rw [hrun]
    refine ⟨h2.1.trans h1.2.2, le_trans h1.1 h2.2.1, ?_⟩
    have hfold : (t :: rest).foldl (fun m t => max m t.head) s.last_scan_block =
        rest.foldl (fun m t => max m t.head) (max s.last_scan_block t.head) :=
      rfl
    rw [hfold]
    exact le_trans h2.2.2 (foldl_max_head_mono rest _ _ (by omega))

/-- C5: across any sequence of `handle_blocks` invocations (arbitrary head
values, lock outcomes and provider behaviour), the forward frontier
`last_scan_block` never decreases — the state after any prefix of the
ticks is a lower bound for the final state — and never exceeds the
maximum of its initial value and every head observed; moreover startup
(`init_state`) caps the initial value by the startup head, so from
startup the frontier never exceeds the highest head ever observed. -/
theorem c5_forward_frontier_monotone (s : BotState) (ticks : List TickInput)
    (hc : 1 ≤ s.chunk_blocks) :
    (∀ pre suf, ticks = pre ++ suf →
      (runTicks s pre).last_scan_block ≤ (runTicks s ticks).last_scan_block) ∧
    (runTicks s ticks).last_scan_block ≤
      ticks.foldl (fun m t => max m t.head) s.last_scan_block ∧
    (∀ (restored : Option BotState) (startupLast : Option Int) (head0 : Int)
        (allowed : Finset String),
      (initState restored startupLast head0 allowed).last_scan_block ≤ head0) := by
  refine ⟨?_, (runTicks_facts ticks s hc).2.2, ?_⟩
  · intro pre suf hsplit
    subst hsplit
    have hpre := runTicks_facts pre s hc
    have hall : runTicks s (pre ++ suf) = runTicks (runTicks s pre) suf := by
      unfold runTicks
      exact List.foldl_append _ _ _ _
    rw [hall]
    have hc2 : 1 ≤ (runTicks s pre).chunk_blocks := by
      rw [hpre.1]
      exact hc
    exact (runTicks_facts suf (runTicks s pre) hc2).2.1
  · intro restored startupLast head0 allowed
    exact min_le_right _ _

/-- Witness for `c5_forward_frontier_monotone` with one concrete tick at
head 5 from the default state. -/
theorem c5_forward_frontier_monotone_witness :
    (1 : Int) ≤ ({} : BotState).chunk_blocks ∧
    (runTicks {} [⟨5, true, true, fun _ _ => Except.ok []⟩]).last_scan_block ≤
      [(⟨5, true, true, fun _ _ => Except.ok []⟩ : TickInput)].foldl
        (fun m t => max m t.head) ({} : BotState).last_scan_block :=
  ⟨by decide,
    (c5_forward_frontier_monotone {} [⟨5, true, true, fun _ _ => Except.ok []⟩]
      (by decide)).2.1⟩
